import Mathlib

/-!
Verification development for the `pmbrl` CEM/MPC planner
(`src/pmbrl/planner.py`, class `Planner`).

Shallow embedding conventions:

* Machine floats are modelled as `Option ℚ`: `some q` is a finite float
  value, `none` is IEEE NaN.  Arithmetic propagates NaN, matching IEEE
  semantics for the operations the planner uses (no infinities arise in
  the planner's own arithmetic; external model outputs are arbitrary).
* Tensors are nested lists; a dimension-reduction such as
  `t.mean(dim=1)` or `t.sum(dim=0)` is written as an indexed
  comprehension over `List.range`, which agrees with the tensor
  operation on well-shaped (rectangular) data.
* The external collaborators (the dynamics ensemble, the reward model
  and the exploration measure) are fields of `Ensemble`/`World`:
  opaque-in-spirit functions supplied by the caller, exactly the
  interface the planner consumes.
* `torch.randn` draws are passed in explicitly as a noise argument: all
  randomness of `Planner.forward` enters through them.
* `float.sqrt` is modelled by `ratSqrt`, a nonnegative rational square
  root that is exact on perfect rational squares (in particular
  `ratSqrt 0 = 0`); the claims proved about standard deviations only
  use nonnegativity and exactness at perfect squares.
-/

namespace Pmbrl

/-- A float value: `some q` is a finite value, `none` is NaN. -/
abbrev Val := Option ℚ

/-- IEEE-style addition: NaN propagates. -/
def vAdd : Val → Val → Val
  | some a, some b => some (a + b)
  | _, _ => none

/-- IEEE-style multiplication: NaN propagates. -/
def vMul : Val → Val → Val
  | some a, some b => some (a * b)
  | _, _ => none

/-- Sum of a list of float values (`torch.sum`); NaN if any entry is NaN. -/
def vSum (xs : List Val) : Val := xs.foldr vAdd (some 0)

/-- Division of a float value by a natural count; division by zero is NaN
(`0/0` in a float mean over an empty dimension). -/
def vDivNat (v : Val) (n : Nat) : Val :=
  if n = 0 then none else v.map (fun q => q / (n : ℚ))

/-- Mean of a list of float values (`torch.mean`): NaN on an empty list
or when any entry is NaN. -/
def vMean (xs : List Val) : Val := vDivNat (vSum xs) xs.length

/-- Binary max with NaN propagation (as in torch reductions). -/
def vMax2 : Val → Val → Val
  | some a, some b => some (max a b)
  | _, _ => none

/-- Binary min with NaN propagation. -/
def vMin2 : Val → Val → Val
  | some a, some b => some (min a b)
  | _, _ => none

/-- `torch.max` reduction over a nonempty list; NaN propagates. -/
def vMax : List Val → Val
  | [] => none
  | x :: xs => xs.foldl vMax2 x

/-- `torch.min` reduction over a nonempty list; NaN propagates. -/
def vMin : List Val → Val
  | [] => none
  | x :: xs => xs.foldl vMin2 x

/-- Rational mean (used on the NaN-free action pipeline). -/
def qMean (xs : List ℚ) : ℚ := xs.sum / xs.length

/-- Biased (population) variance, divisor `n`
(`torch.std(..., unbiased=False)` squared). -/
def popVar (xs : List ℚ) : ℚ :=
  (xs.map (fun x => (x - qMean xs) ^ 2)).sum / xs.length

/-- Unbiased (sample) variance, divisor `n - 1` (`torch.std()` default). -/
def sampleVar (xs : List ℚ) : ℚ :=
  (xs.map (fun x => (x - qMean xs) ^ 2)).sum / ((xs.length : ℚ) - 1)

/-- Nonnegative rational square root, exact on perfect rational squares;
models `sqrt` on the nonnegative values the planner feeds it. -/
def ratSqrt (q : ℚ) : ℚ := (Nat.sqrt q.num.toNat : ℚ) / (Nat.sqrt q.den : ℚ)

/-- Unbiased standard deviation of a list of float values (`torch.std()`):
NaN when any entry is NaN or when there are fewer than two entries. -/
def vStd (xs : List Val) : Val :=
  if xs.any Option.isNone ∨ xs.length ≤ 1 then none
  else some (ratSqrt (sampleVar (xs.map (fun v => v.getD 0))))

/-- Three-way `zipWith`, used for broadcast expressions over three
equally-indexed containers. -/
def zipWith3 (f : α → β → γ → δ) : List α → List β → List γ → List δ
  | a :: as, b :: bs, c :: cs => f a b c :: zipWith3 f as bs cs
  | _, _, _ => []

/-- A state row (one state vector, float entries). -/
abbrev Vec := List Val

/-- A `(candidates, dim)` block of state rows. -/
abbrev Mat := List Vec

/-- An `(ensemble, candidates, dim)` state tensor. -/
abbrev Ten3 := List Mat

/-- A `(horizon, ensemble, candidates, dim)` trajectory tensor. -/
abbrev Ten4 := List Ten3

/-- One timestep of candidate actions, `(candidates, action_size)`,
rational entries (the action pipeline never produces NaN). -/
abbrev AMat := List (List ℚ)

/-- A candidate action tensor, `(horizon, candidates, action_size)`. -/
abbrev ASeq := List AMat

/-- Shape predicate for an `(E, C, D)` tensor. -/
def ten3Shape (E C D : Nat) (x : Ten3) : Prop :=
  x.length = E ∧ ∀ m ∈ x, m.length = C ∧ ∀ r ∈ m, r.length = D

/-- Shape predicate for an `(H, E, C, D)` tensor. -/
def ten4Shape (H E C D : Nat) (x : Ten4) : Prop :=
  x.length = H ∧ ∀ m ∈ x, ten3Shape E C D m

/-- Shape predicate for a `(C, A)` action slice. -/
def aMatShape (C A : Nat) (x : AMat) : Prop :=
  x.length = C ∧ ∀ r ∈ x, r.length = A

/-- Shape predicate for an `(H, C, A)` action tensor. -/
def aSeqShape (H C A : Nat) (x : ASeq) : Prop :=
  x.length = H ∧ ∀ m ∈ x, aMatShape C A m

instance (E C D : Nat) (x : Ten3) : Decidable (ten3Shape E C D x) := by
  unfold ten3Shape; infer_instance

instance (H E C D : Nat) (x : Ten4) : Decidable (ten4Shape H E C D x) := by
  unfold ten4Shape; infer_instance

instance (C A : Nat) (x : AMat) : Decidable (aMatShape C A x) := by
  unfold aMatShape; infer_instance

instance (H C A : Nat) (x : ASeq) : Decidable (aSeqShape H C A x) := by
  unfold aSeqShape; infer_instance

/-- The dynamics-model ensemble interface consumed by the planner
(spec section 6): `predict` returns per-member `(delta_mean, delta_var)`
and `sample` draws a stochastic state delta. The per-timestep action
argument is the `(ensemble, candidates, action_size)` replica block. -/
structure Ensemble where
  ensemble_size : Nat
  predict : Ten3 → List AMat → Ten3 × Ten3
  sample : Ten3 → Ten3 → Ten3

/-- Elementwise addition of two state tensors (`states[t] + delta`). -/
def addTen3 (x y : Ten3) : Ten3 :=
  List.zipWith (List.zipWith (List.zipWith vAdd)) x y

/-- `actions.unsqueeze(0).repeat(E, 1, 1, 1).permute(1, 0, 2, 3)`:
per timestep, the `(C, A)` action slice replicated across the ensemble
dimension, giving time-indexed `(E, C, A)` blocks. -/
def permuteActions (E : Nat) (actions : ASeq) : List (List AMat) :=
  actions.map (fun slice => List.replicate E slice)

/-- The body of the rollout loop: starting from state `s`, consume one
per-timestep `(E, C, A)` action block at a time; at each step query the
ensemble, add the sampled delta to the current state, and record
`(new_state, delta_var, delta_mean)`. -/
def rolloutSteps (ens : Ensemble) (s : Ten3) :
    List (List AMat) → List (Ten3 × Ten3 × Ten3)
  | [] => []
  | a :: rest =>
    let p := ens.predict s a
    let s' := addTen3 s (ens.sample p.1 p.2)
    (s', p.2, p.1) :: rolloutSteps ens s' rest

/-- `Planner.perform_rollout`: runs the rollout loop for `plan_horizon`
steps and returns `(states, delta_vars, delta_means)`, the recorded
trajectories for simulated timesteps `1..plan_horizon` (the seed state
at `t = 0` is not part of the output, mirroring the `[1:]` stacking). -/
def perform_rollout (ens : Ensemble) (H : Nat) (s0 : Ten3) (actions : ASeq) :
    Ten4 × Ten4 × Ten4 :=
  let tr := rolloutSteps ens s0 ((permuteActions ens.ensemble_size actions).take H)
  (tr.map (fun x => x.1), tr.map (fun x => x.2.1), tr.map (fun x => x.2.2))

/-- The full list of rollout states including the seed: position `t`
holds the state at simulated timestep `t` (position `0` is `s0`, the
code's `states[0] = current_state`). -/
def rolloutStatesList (ens : Ensemble) (s0 : Ten3) (acts : List (List AMat)) :
    List Ten3 :=
  s0 :: (rolloutSteps ens s0 acts).map (fun x => x.1)

/-- `t.sum(dim=0)` on a `(T, C)` table of float values: column sums,
written as a comprehension over the column index (agrees with the
tensor operation on rectangular data with row length `C`). -/
def sumDim0 (C : Nat) (rows : List (List Val)) : List Val :=
  (List.range C).map (fun c => vSum (rows.map (fun r => r.getD c (some 0))))

/-- `t.mean(dim=0)` on a `(T, C)` table of float values: column means,
dividing by the reduced dimension's size `T` (NaN when `T = 0`). -/
def meanDim0 (C : Nat) (rows : List (List Val)) : List Val :=
  (List.range C).map
    (fun c => vDivNat (vSum (rows.map (fun r => r.getD c (some 0)))) rows.length)

/-- The reward branch of the CEM loop body:
`rewards = reward_model(states.view(-1, state_size)).view(H, E, C)`,
then `rewards.mean(dim=1).sum(dim=0)`.  The flatten/unflatten pair is
the identity on the nested representation, so the reward model is
applied row-wise; then the ensemble dimension is averaged and the time
dimension summed, giving one float value per candidate. -/
def computeRewards (C : Nat) (reward_model : Vec → Val) (states : Ten4) :
    List Val :=
  let rewards : List (List (List Val)) :=
    states.map (fun m3 => m3.map (fun m2 => m2.map reward_model))
  sumDim0 C (rewards.map (fun tbl => meanDim0 C tbl))

/-- The exploration branch of the CEM loop body:
`expl_bonus = measure(delta_means, delta_vars) * expl_scale`, then
`expl_bonus.sum(dim=0)`: the measure's per-(time, candidate) bonus
table is scaled and summed over time, giving one float per candidate. -/
def computeExplBonus (C : Nat) (scale : ℚ)
    (measure : Ten4 → Ten4 → List (List Val)) (dmeans dvars : Ten4) :
    List Val :=
  sumDim0 C ((measure dmeans dvars).map (fun row => row.map (fun b => vMul b (some scale))))

/-- Descending sort of the index/value pairs of a returns vector
(indices from `enum`, compared by value).  This realizes one valid
implementation of `torch.topk(..., largest=True, sorted=False)`, whose
tie order is unspecified. -/
def pairGe (p q : Nat × ℚ) : Prop := q.2 ≤ p.2

instance : DecidableRel pairGe := fun p q => inferInstanceAs (Decidable (q.2 ≤ p.2))

instance : IsTotal (Nat × ℚ) pairGe := ⟨fun a b => le_total b.2 a.2⟩

instance : IsTrans (Nat × ℚ) pairGe :=
  ⟨fun _ _ _ hab hbc => le_trans hbc hab⟩

/-- Descending order on rationals, used to state what "the k largest
values" means. -/
def qGe (a b : ℚ) : Prop := b ≤ a

instance : DecidableRel qGe := fun a b => inferInstanceAs (Decidable (b ≤ a))

instance : IsTotal ℚ qGe := ⟨fun a b => le_total b a⟩

instance : IsTrans ℚ qGe := ⟨fun _ _ _ hab hbc => le_trans hbc hab⟩

instance : IsAntisymm ℚ qGe := ⟨fun _ _ h1 h2 => le_antisymm h2 h1⟩

/-- The index/value pairs of `xs` sorted by descending value. -/
def sortDescPairs (xs : List ℚ) : List (Nat × ℚ) :=
  List.insertionSort pairGe xs.enum

/-- The values of `xs` sorted descending: position `i` holds the
`(i+1)`-st largest value. -/
def sortDesc (xs : List ℚ) : List ℚ := List.insertionSort qGe xs

/-- `returns.topk(k, dim=0, largest=True, sorted=False)` index output:
`k` indices of largest values.  This embedding returns them in
descending value order, one of the implementation-defined orders the
unspecified (`sorted=False`) tie-breaking permits. -/
def topk (k : Nat) (xs : List ℚ) : List Nat :=
  ((sortDescPairs xs).take k).map Prod.fst

/-- `actions[:, idxs]` followed by the shape-asserting
`reshape(plan_horizon, top_candidates, action_size)`: gathers the
selected candidate columns of every timestep slice. -/
def gather (actions : ASeq) (idxs : List Nat) : ASeq :=
  actions.map (fun slice => idxs.map (fun i => slice.getD i []))

/-- `best_actions.mean(dim=1, keepdim=True)`: per (time, action-dim)
mean over the elite candidates.  The action-dim comprehension over
`List.range A` plays the role of the preceding `reshape(H, k, A)`
shape assertion; the broadcast dimension of size 1 is elided. -/
def refitMean (A : Nat) (best : ASeq) : List (List ℚ) :=
  best.map (fun block =>
    (List.range A).map (fun a => qMean (block.map (fun row => row.getD a 0))))

/-- `best_actions.std(dim=1, unbiased=False, keepdim=True)`: per
(time, action-dim) biased population standard deviation over the elite
candidates. -/
def refitStd (A : Nat) (best : ASeq) : List (List ℚ) :=
  best.map (fun block =>
    (List.range A).map (fun a => ratSqrt (popVar (block.map (fun row => row.getD a 0)))))

/-- `actions = action_mean + action_std_dev * torch.randn(H, C, A)`:
the `(H, 1, A)` mean/std broadcast against the `(H, C, A)` noise draw. -/
def sampleActions (mean std : List (List ℚ)) (noise : ASeq) : ASeq :=
  zipWith3
    (fun m s nslice =>
      nslice.map (fun nrow => zipWith3 (fun mi si ni => mi + si * ni) m s nrow))
    mean std noise

/-- The planner's configuration (spec section 6). -/
structure Cfg where
  action_size : Nat
  plan_horizon : Nat
  optimisation_iters : Nat
  n_candidates : Nat
  top_candidates : Nat
  use_reward : Bool := true
  use_exploration : Bool := true
  expl_scale : ℚ := 1

/-- The planner's external collaborators: the dynamics ensemble, the
reward model (applied per state row), the exploration measure
(`InformationGain`), and the measure's reported statistics. -/
structure World where
  ensemble : Ensemble
  reward_model : Vec → Val
  measure : Ten4 → Ten4 → List (List Val)
  measure_stats : List (String × ℚ)

/-- The state threaded through the CEM loop: the action distribution
parameters and the planner's persistent `reward_stats` log. -/
structure LoopState where
  action_mean : List (List ℚ)
  action_std_dev : List (List ℚ)
  reward_log : List (List Val)

/-- The per-candidate returns vector of one CEM iteration, before NaN
normalization: zeros, plus the scaled summed exploration bonus when
exploration is enabled, plus the ensemble-averaged time-summed reward
when reward is enabled (`returns += ...` twice). -/
def cemReturns (cfg : Cfg) (w : World) (state0 : Ten3) (ls : LoopState)
    (noise : ASeq) : List Val :=
  let actions := sampleActions ls.action_mean ls.action_std_dev noise
  let out := perform_rollout w.ensemble cfg.plan_horizon state0 actions
  let returns0 := List.replicate cfg.n_candidates (some (0 : ℚ))
  let returns1 :=
    if cfg.use_exploration then
      List.zipWith vAdd returns0
        (computeExplBonus cfg.n_candidates cfg.expl_scale w.measure out.2.2 out.2.1)
    else returns0
  if cfg.use_reward then
    List.zipWith vAdd returns1 (computeRewards cfg.n_candidates w.reward_model out.1)
  else returns1

/-- `torch.where(torch.isnan(returns), torch.zeros_like(returns), returns)`:
every NaN entry becomes exactly `0`, every finite entry is kept. -/
def cleanReturns (rs : List Val) : List ℚ := rs.map (fun v => v.getD 0)

/-- One iteration of the CEM loop, with the elite-selection function
abstracted (`sel` stands for the index output of `topk`, whose tie
order is implementation-defined). -/
def iterStepSel (cfg : Cfg) (w : World) (state0 : Ten3)
    (sel : List ℚ → List Nat) (ls : LoopState) (noise : ASeq) : LoopState :=
  let actions := sampleActions ls.action_mean ls.action_std_dev noise
  let out := perform_rollout w.ensemble cfg.plan_horizon state0 actions
  let log' :=
    if cfg.use_reward then
      ls.reward_log ++ [computeRewards cfg.n_candidates w.reward_model out.1]
    else ls.reward_log
  let elite := sel (cleanReturns (cemReturns cfg w state0 ls noise))
  let best := gather actions elite
  { action_mean := refitMean cfg.action_size best
    action_std_dev := refitStd cfg.action_size best
    reward_log := log' }

/-- One iteration of the CEM loop with the concrete `topk` selection. -/
def iterStep (cfg : Cfg) (w : World) (state0 : Ten3) (ls : LoopState)
    (noise : ASeq) : LoopState :=
  iterStepSel cfg w state0 (topk cfg.top_candidates) ls noise

/-- The `for _ in range(optimisation_iters)` loop, consuming one noise
draw per iteration. -/
def runItersSel (cfg : Cfg) (w : World) (state0 : Ten3)
    (sel : List ℚ → List Nat) : LoopState → List ASeq → LoopState
  | ls, [] => ls
  | ls, n :: ns => runItersSel cfg w state0 sel (iterStepSel cfg w state0 sel ls n) ns

/-- `runItersSel` with the concrete `topk` selection. -/
def runIters (cfg : Cfg) (w : World) (state0 : Ten3)
    (ls : LoopState) (noises : List ASeq) : LoopState :=
  runItersSel cfg w state0 (topk cfg.top_candidates) ls noises

/-- The initial loop state of one `forward` call:
`action_mean = zeros(H, 1, A)`, `action_std_dev = ones(H, 1, A)`, and
the planner's incoming `reward_stats` log. -/
def initLoopState (cfg : Cfg) (log : List (List Val)) : LoopState :=
  { action_mean := List.replicate cfg.plan_horizon (List.replicate cfg.action_size 0)
    action_std_dev := List.replicate cfg.plan_horizon (List.replicate cfg.action_size 1)
    reward_log := log }

/-- `Planner.forward` (the `plan` entry point) with the selection
function abstracted: broadcast the observed state across ensemble
members and candidates, run the CEM loop, and return the first-timestep
slice of the final action mean together with the updated log. -/
def forwardSel (cfg : Cfg) (w : World) (sel : List ℚ → List Nat)
    (log : List (List Val)) (s : Vec) (noises : List ASeq) :
    List ℚ × List (List Val) :=
  let state0 : Ten3 :=
    List.replicate w.ensemble.ensemble_size (List.replicate cfg.n_candidates s)
  let ls := runItersSel cfg w state0 sel (initLoopState cfg log) noises
  (ls.action_mean.headD [], ls.reward_log)

/-- `Planner.forward`: the planner's `plan(current_state)` operation.
All `torch.randn` draws enter through `noises` (one `(H, C, A)` draw
per optimisation iteration). -/
def forward (cfg : Cfg) (w : World) (log : List (List Val)) (s : Vec)
    (noises : List ASeq) : List ℚ × List (List Val) :=
  forwardSel cfg w (topk cfg.top_candidates) log s noises

/-- The reward half of the drained statistics: max/mean/min/std of
the flattened log. -/
structure RewardStats where
  max : Val
  mean : Val
  min : Val
  std : Val
deriving DecidableEq

/-- `Planner.get_stats`: returns `(info_stats, reward_stats)` and clears
the reward log.  `none` in the first component models the exception
raised before any mutation: `torch.stack` raises on an empty list or on
rows of unequal length, and `.max()` raises on an empty flattened
tensor; in those cases the log is returned unchanged. -/
def get_stats (use_exploration : Bool) (measure_stats : List (String × ℚ))
    (log : List (List Val)) :
    Option (List (String × ℚ) × RewardStats) × List (List Val) :=
  if log = [] then (none, log)
  else if ¬ (∀ r ∈ log, r.length = (log.headD []).length) then (none, log)
  else if (log.headD []).length = 0 then (none, log)
  else
    let flat := log.flatten
    (some (if use_exploration then measure_stats else [],
      { max := vMax flat, mean := vMean flat, min := vMin flat, std := vStd flat }),
     [])

/-! ### Helper lemmas on list indexing -/

theorem getD_map_lt {α β : Type _} (f : α → β) (l : List α) {i : Nat}
    (h : i < l.length) (d : β) (d' : α) :
    (l.map f).getD i d = f (l.getD i d') := by
  rw [List.getD_eq_getElem _ _ (by simpa using h), List.getElem_map,
    List.getD_eq_getElem _ _ h]

theorem getD_range_lt {C i : Nat} (h : i < C) (d : Nat) :
    (List.range C).getD i d = i := by
  rw [List.getD_eq_getElem _ _ (by simpa using h), List.getElem_range]

theorem getD_replicate_lt {α : Type _} {n i : Nat} (h : i < n) (x : α) (d : α) :
    (List.replicate n x).getD i d = x := by
  rw [List.getD_eq_getElem _ _ (by simpa using h), List.getElem_replicate]

/-! ### Shared concrete instances used by witness theorems -/

/-- A one-member, one-dimensional constant dynamics ensemble. -/
def exEnsemble : Ensemble where
  ensemble_size := 1
  predict := fun _ _ => ([[[some 0]]], [[[some 0]]])
  sample := fun dm _ => dm

/-- A world whose reward model always returns NaN and whose exploration
measure reports nothing. -/
def exWorldNan : World where
  ensemble := exEnsemble
  reward_model := fun _ => none
  measure := fun _ _ => []
  measure_stats := []

/-- A minimal valid configuration: one candidate, one-step horizon. -/
def exCfg : Cfg where
  action_size := 1
  plan_horizon := 1
  optimisation_iters := 1
  n_candidates := 1
  top_candidates := 1
  use_reward := true
  use_exploration := false
  expl_scale := 1

/-! ### C10 -/

/-- Claim C10: at every rollout timestep `t`, all ensemble members
receive identical candidate actions — the action block passed to the
ensemble at time `t` is the `(n_candidates, action_size)` slice
`actions[t]` replicated across the ensemble dimension, so any two
ensemble members (indices below `ensemble_size`) see equal rows. -/
theorem C10_replicated_actions (E : Nat) (actions : ASeq) (t e1 e2 : Nat)
    (he1 : e1 < E) (he2 : e2 < E) (ht : t < actions.length) :
    ((permuteActions E actions).getD t []).getD e1 [] = actions.getD t []
    ∧ ((permuteActions E actions).getD t []).getD e1 [] =
      ((permuteActions E actions).getD t []).getD e2 [] := by
  have hslice : (permuteActions E actions).getD t [] =
      List.replicate E (actions.getD t []) := by
    unfold permuteActions
    exact getD_map_lt _ _ ht _ _
  rw [hslice, getD_replicate_lt he1, getD_replicate_lt he2]
  exact ⟨rfl, rfl⟩

/-- Witness for C10 at a concrete instance. -/
theorem C10_replicated_actions_witness :
    ((permuteActions 2 [[[ (3 : ℚ) ]]]).getD 0 []).getD 0 [] = [[ (3 : ℚ) ]]
    ∧ ((permuteActions 2 [[[ (3 : ℚ) ]]]).getD 0 []).getD 0 [] =
      ((permuteActions 2 [[[ (3 : ℚ) ]]]).getD 0 []).getD 1 [] :=
  C10_replicated_actions 2 [[[ (3 : ℚ) ]]] 0 0 1 (by decide) (by decide) (by decide)

/-! ### C3 -/

/-- Claim C3: in every iteration, after the exploration and reward
contributions are accumulated into the per-candidate returns vector and
before top-k selection, NaN normalization replaces every NaN entry by
exactly `0` and keeps every finite entry; no candidate is discarded
(the vector's length is unchanged) and no error is raised (the
normalization is total), so a NaN-returning candidate participates in
selection with effective return `0`.  `iterStepSel` applies the
selection to exactly this cleaned vector. -/
theorem C3_nan_to_zero (cfg : Cfg) (w : World) (state0 : Ten3)
    (ls : LoopState) (noise : ASeq) (i : Nat)
    (hi : i < (cemReturns cfg w state0 ls noise).length) :
    (cleanReturns (cemReturns cfg w state0 ls noise)).length =
      (cemReturns cfg w state0 ls noise).length
    ∧ ((cemReturns cfg w state0 ls noise).getD i none = none →
        (cleanReturns (cemReturns cfg w state0 ls noise)).getD i 0 = 0)
    ∧ (∀ q : ℚ, (cemReturns cfg w state0 ls noise).getD i none = some q →
        (cleanReturns (cemReturns cfg w state0 ls noise)).getD i 0 = q) := by
  refine ⟨List.length_map _ _, ?_, ?_⟩
  · intro hnan
    rw [cleanReturns, getD_map_lt _ _ hi _ none, hnan]
    rfl
  · intro q hq
    rw [cleanReturns, getD_map_lt _ _ hi _ none, hq]
    rfl

/-- Witness for C3: a reward model that produces NaN makes the
iteration's returns vector NaN at candidate 0, and the normalized
vector holds exactly `0` there. -/
theorem C3_nan_to_zero_witness :
    (cleanReturns (cemReturns exCfg exWorldNan [[[some 0]]]
        (initLoopState exCfg []) [[[0]]])).getD 0 0 = 0 := by
  have h := C3_nan_to_zero exCfg exWorldNan [[[some 0]]]
    (initLoopState exCfg []) [[[0]]] 0 (by decide)
  exact h.2.1 (by decide)

/-! ### C8 -/

/-- Claim C8: draining the statistics always leaves the reward log
empty — when the log was already empty `get_stats` raises (modelled by
the `none` result) before reaching the clearing assignment, so the log
stays empty; when the log is non-empty (rows are the per-candidate
reward vectors, all of length `n_candidates > 0`) it returns max, mean,
min and std computed over the flattened collection of all logged reward
values, paired with the exploration scorer's statistics, which are the
empty mapping when exploration is disabled. -/
theorem C8_get_stats_drain (ue : Bool) (ms : List (String × ℚ))
    (log : List (List Val)) (C : Nat) (hC : 0 < C)
    (hrows : ∀ r ∈ log, r.length = C) :
    (get_stats ue ms log).2 = []
    ∧ (log ≠ [] →
        (get_stats ue ms log).1 =
          some (if ue then ms else [],
            { max := vMax log.flatten, mean := vMean log.flatten,
              min := vMin log.flatten, std := vStd log.flatten })) := by
  rcases hlog : log with _ | ⟨r, rest⟩
  · exact ⟨by simp [get_stats], fun h => absurd rfl h⟩
  · subst hlog
    have hhead : (r :: rest).headD [] = r := rfl
    have hall : ∀ q ∈ r :: rest, q.length = ((r :: rest).headD []).length := by
      intro q hq
      rw [hhead, hrows q hq, hrows r (List.mem_cons_self r rest)]
    have hlen : ((r :: rest).headD []).length ≠ 0 := by
      rw [hhead, hrows r (List.mem_cons_self r rest)]
      omega
    constructor
    · simp only [get_stats]
      rw [if_neg (by simp), if_neg (by simpa using hall), if_neg hlen]
    · intro _
      simp only [get_stats]
      rw [if_neg (by simp), if_neg (by simpa using hall), if_neg hlen]

/-- Witness for C8 at a concrete two-row log. -/
theorem C8_get_stats_drain_witness :
    (get_stats false [] [[some 1, some 2], [some 3, none]]).2 = []
    ∧ ([[some 1, some 2], [some 3, none]] ≠ ([] : List (List Val)) →
        (get_stats false [] [[some 1, some 2], [some 3, none]]).1 =
          some ((if false then [] else []),
            { max := vMax ([[some 1, some 2], [some 3, none]] : List (List Val)).flatten,
              mean := vMean ([[some 1, some 2], [some 3, none]] : List (List Val)).flatten,
              min := vMin ([[some 1, some 2], [some 3, none]] : List (List Val)).flatten,
              std := vStd ([[some 1, some 2], [some 3, none]] : List (List Val)).flatten })) :=
  C8_get_stats_drain false [] [[some 1, some 2], [some 3, none]] 2 (by decide)
    (by decide)

/-! ### C2 -/

theorem sortDescPairs_perm (xs : List ℚ) : (sortDescPairs xs).Perm xs.enum :=
  List.perm_insertionSort pairGe xs.enum

theorem sortDescPairs_sorted (xs : List ℚ) :
    (sortDescPairs xs).Sorted pairGe :=
  List.sorted_insertionSort pairGe xs.enum

theorem mem_sortDescPairs (xs : List ℚ) {p : Nat × ℚ}
    (hp : p ∈ sortDescPairs xs) : p.1 < xs.length ∧ xs.getD p.1 0 = p.2 := by
  have henum : p ∈ xs.enum := (sortDescPairs_perm xs).mem_iff.mp hp
  have hlt : p.1 < xs.length := List.fst_lt_of_mem_enum henum
  refine ⟨hlt, ?_⟩
  have hget : xs[p.1]? = some p.2 := List.mem_enum_iff_getElem?.mp henum
  rw [List.getD_eq_getElem _ _ hlt]
  have := List.getElem?_eq_getElem hlt
  rw [this] at hget
  exact Option.some.inj hget

theorem map_snd_sortDescPairs (xs : List ℚ) :
    (sortDescPairs xs).map Prod.snd = sortDesc xs := by
  have hperm : ((sortDescPairs xs).map Prod.snd).Perm (sortDesc xs) := by
    have h1 : ((sortDescPairs xs).map Prod.snd).Perm xs := by
      have := (sortDescPairs_perm xs).map Prod.snd
      rwa [List.enum_map_snd] at this
    exact h1.trans (List.perm_insertionSort qGe xs).symm
  have hs1 : ((sortDescPairs xs).map Prod.snd).Sorted qGe :=
    List.Pairwise.map Prod.snd (fun _ _ h => h) (sortDescPairs_sorted xs)
  exact List.eq_of_perm_of_sorted hperm hs1 (List.sorted_insertionSort qGe xs)

/-- Claim C2: in every CEM iteration, the elite selection applied to
the NaN-normalized returns vector of that iteration yields exactly
`top_candidates` distinct in-range candidate indices, and the multiset
of their returns equals the multiset of the `top_candidates` largest
entries of the vector (the first `top_candidates` entries of the
descending sort); the order among tied values is unspecified and only
the multiset is pinned down. -/
theorem C2_topk_selects_largest (cfg : Cfg) (w : World) (state0 : Ten3)
    (ls : LoopState) (noise : ASeq)
    (hk : cfg.top_candidates ≤
      (cleanReturns (cemReturns cfg w state0 ls noise)).length) :
    (topk cfg.top_candidates (cleanReturns (cemReturns cfg w state0 ls noise))).length
        = cfg.top_candidates
    ∧ (topk cfg.top_candidates (cleanReturns (cemReturns cfg w state0 ls noise))).Nodup
    ∧ (∀ i ∈ topk cfg.top_candidates (cleanReturns (cemReturns cfg w state0 ls noise)),
        i < (cleanReturns (cemReturns cfg w state0 ls noise)).length)
    ∧ ((topk cfg.top_candidates (cleanReturns (cemReturns cfg w state0 ls noise))).map
        (fun i => (cleanReturns (cemReturns cfg w state0 ls noise)).getD i 0)).Perm
      ((sortDesc (cleanReturns (cemReturns cfg w state0 ls noise))).take
        cfg.top_candidates) := by
  set xs := cleanReturns (cemReturns cfg w state0 ls noise) with hxs
  set k := cfg.top_candidates with hkdef
  have hlen : (sortDescPairs xs).length = xs.length := by
    rw [(sortDescPairs_perm xs).length_eq, List.enum_length]
  refine ⟨?_, ?_, ?_, ?_⟩
  · rw [topk, List.length_map, List.length_take, hlen]
    omega
  · have hfst : ((sortDescPairs xs).map Prod.fst).Nodup := by
      have := (sortDescPairs_perm xs).map Prod.fst
      rw [List.enum_map_fst] at this
      exact this.symm.nodup (List.nodup_range _)
    exact hfst.sublist ((List.take_sublist k (sortDescPairs xs)).map Prod.fst)
  · intro i hi
    rw [topk, List.mem_map] at hi
    obtain ⟨p, hp, rfl⟩ := hi
    exact (mem_sortDescPairs xs (List.mem_of_mem_take hp)).1
  · have heq : (topk k xs).map (fun i => xs.getD i 0) = (sortDesc xs).take k := by
      rw [topk, List.map_map]
      have hcong : ((sortDescPairs xs).take k).map ((fun i => xs.getD i 0) ∘ Prod.fst)
          = ((sortDescPairs xs).take k).map Prod.snd :=
        List.map_congr_left (fun p hp =>
          (mem_sortDescPairs xs (List.mem_of_mem_take hp)).2)
      rw [hcong, List.map_take, map_snd_sortDescPairs]
    exact heq ▸ List.Perm.refl _

/-- Witness for C2 at a concrete instance (the spec's example vector
`[1, 5, 3, 9, 2]` with `top_candidates = 2` is covered by the general
theorem; here the claim theorem itself is applied at a concrete
iteration of the example world). -/
theorem C2_topk_selects_largest_witness :
    (topk exCfg.top_candidates (cleanReturns (cemReturns exCfg exWorldNan [[[some 0]]]
        (initLoopState exCfg []) [[[0]]]))).length = exCfg.top_candidates := by
  have h := C2_topk_selects_largest exCfg exWorldNan [[[some 0]]]
    (initLoopState exCfg []) [[[0]]] (by decide)
  exact h.1

/-! ### C7 -/

theorem ratSqrt_nonneg (q : ℚ) : 0 ≤ ratSqrt q :=
  div_nonneg (Nat.cast_nonneg _) (Nat.cast_nonneg _)

theorem ratSqrt_zero : ratSqrt 0 = 0 := by
  norm_num [ratSqrt]

theorem qMean_const {xs : List ℚ} {c : ℚ} (hne : xs ≠ [])
    (h : ∀ x ∈ xs, x = c) : qMean xs = c := by
  rw [qMean, List.sum_eq_card_nsmul xs c h, nsmul_eq_mul]
  have hn : (xs.length : ℚ) ≠ 0 := by
    have := List.length_pos.mpr hne
    positivity
  field_simp

theorem popVar_const {xs : List ℚ} {c : ℚ} (hne : xs ≠ [])
    (h : ∀ x ∈ xs, x = c) : popVar xs = 0 := by
  have hz : (xs.map (fun x => (x - qMean xs) ^ 2)).sum = 0 := by
    refine List.sum_eq_zero ?_
    intro y hy
    obtain ⟨x, hx, rfl⟩ := List.mem_map.mp hy
    rw [h x hx, qMean_const hne h]
    ring
  rw [popVar, hz, zero_div]

theorem zipWith3_getD {α β γ δ : Type _} (f : α → β → γ → δ) :
    ∀ (l1 : List α) (l2 : List β) (l3 : List γ) (i : Nat),
      i < l1.length → i < l2.length → i < l3.length →
      ∀ (d : δ) (d1 : α) (d2 : β) (d3 : γ),
      (zipWith3 f l1 l2 l3).getD i d = f (l1.getD i d1) (l2.getD i d2) (l3.getD i d3) := by
  intro l1
  induction l1 with
  | nil => intro l2 l3 i h1; simp at h1
  | cons a as ih =>
    intro l2 l3 i h1 h2 h3 d d1 d2 d3
    cases l2 with
    | nil => simp at h2
    | cons b bs =>
      cases l3 with
      | nil => simp at h3
      | cons c cs =>
        cases i with
        | zero => rfl
        | succ i =>
          simp only [zipWith3, List.getD_cons_succ]
          exact ih bs cs i (by simpa using h1) (by simpa using h2)
            (by simpa using h3) d d1 d2 d3

theorem refitStd_getD {A : Nat} {best : ASeq} {t a : Nat}
    (ht : t < best.length) (ha : a < A) :
    ((refitStd A best).getD t []).getD a 0 =
      ratSqrt (popVar ((best.getD t []).map (fun row => row.getD a 0))) := by
  rw [refitStd, getD_map_lt _ _ ht _ [],
    getD_map_lt _ _ (by simpa using ha) _ 0, getD_range_lt ha]

theorem refitStd_nonneg (A : Nat) (best : ASeq) (u b : Nat) :
    0 ≤ ((refitStd A best).getD u []).getD b 0 := by
  rcases Nat.lt_or_ge u best.length with hu | hu
  · rcases Nat.lt_or_ge b A with hb | hb
    · rw [refitStd_getD hu hb]
      exact ratSqrt_nonneg _
    · rw [refitStd, getD_map_lt _ _ hu _ [],
        List.getD_eq_default _ _ (by simpa using hb)]
  · have hrow : (refitStd A best).getD u [] = [] :=
      List.getD_eq_default _ _ (by simpa [refitStd] using hu)
    rw [hrow]
    simp

theorem sampleActions_getD {mean std : List (List ℚ)} {noise : ASeq}
    {t c a : Nat} (htm : t < mean.length) (hts : t < std.length)
    (htn : t < noise.length) (hc : c < (noise.getD t []).length)
    (ham : a < (mean.getD t []).length) (has : a < (std.getD t []).length)
    (han : a < ((noise.getD t []).getD c []).length) :
    (((sampleActions mean std noise).getD t []).getD c []).getD a 0 =
      (mean.getD t []).getD a 0 +
        (std.getD t []).getD a 0 * ((noise.getD t []).getD c []).getD a 0 := by
  rw [sampleActions, zipWith3_getD _ mean std noise t htm hts htn [] [] [] [],
    getD_map_lt _ _ hc _ [],
    zipWith3_getD _ _ _ _ a ham has han 0 0 0 0]

/-- Claim C7: after every elite refit, every entry of `action_std_dev`
is non-negative (it is the biased population standard deviation of the
elite set per (time, action-dim)); if the elite set is constant along
some in-range (time, action-dim) entry, that entry is exactly zero, and
the next sampling round then reproduces the mean deterministically
along that entry, whatever the noise draw — no error is raised
anywhere. -/
theorem C7_refit_std (A : Nat) (best : ASeq) (t a : Nat)
    (ht : t < best.length) (ha : a < A) (c0 : ℚ)
    (hne : best.getD t [] ≠ [])
    (hconst : ∀ row ∈ best.getD t [], row.getD a 0 = c0) :
    (∀ u b : Nat, 0 ≤ ((refitStd A best).getD u []).getD b 0)
    ∧ ((refitStd A best).getD t []).getD a 0 = 0
    ∧ (∀ (mean : List (List ℚ)) (noise : ASeq) (c : Nat),
        t < mean.length → t < noise.length → c < (noise.getD t []).length →
        a < (mean.getD t []).length → a < ((noise.getD t []).getD c []).length →
        (((sampleActions mean (refitStd A best) noise).getD t []).getD c []).getD a 0
          = (mean.getD t []).getD a 0) := by
  have hzero : ((refitStd A best).getD t []).getD a 0 = 0 := by
    rw [refitStd_getD ht ha]
    have hcol : ∀ x ∈ (best.getD t []).map (fun row => row.getD a 0), x = c0 := by
      intro x hx
      obtain ⟨row, hrow, rfl⟩ := List.mem_map.mp hx
      exact hconst row hrow
    have hcne : (best.getD t []).map (fun row => row.getD a 0) ≠ [] := by
      simpa using hne
    rw [popVar_const hcne hcol, ratSqrt_zero]
  refine ⟨refitStd_nonneg A best, hzero, ?_⟩
  intro mean noise c htm htn hc ham han
  have hts : t < (refitStd A best).length := by simpa [refitStd] using ht
  have has : a < ((refitStd A best).getD t []).length := by
    rw [refitStd, getD_map_lt _ _ ht _ []]
    simpa using ha
  rw [sampleActions_getD htm hts htn hc ham has han, hzero]
  ring

/-- Witness for C7: a constant two-element elite column collapses to
std-dev zero and deterministic resampling of the mean. -/
theorem C7_refit_std_witness :
    (∀ u b : Nat, 0 ≤ ((refitStd 1 [[[5], [5]]]).getD u []).getD b 0)
    ∧ ((refitStd 1 [[[5], [5]]]).getD 0 []).getD 0 0 = 0
    ∧ (∀ (mean : List (List ℚ)) (noise : ASeq) (c : Nat),
        0 < mean.length → 0 < noise.length → c < (noise.getD 0 []).length →
        0 < (mean.getD 0 []).length → 0 < ((noise.getD 0 []).getD c []).length →
        (((sampleActions mean (refitStd 1 [[[5], [5]]]) noise).getD 0 []).getD c []).getD 0 0
          = (mean.getD 0 []).getD 0 0) :=
  C7_refit_std 1 [[[5], [5]]] 0 0 (by decide) (by decide) 5 (by decide) (by decide)

/-! ### C4 -/

theorem rollout_step_spec (ens : Ensemble) :
    ∀ (acts : List (List AMat)) (s0 : Ten3) (t : Nat), t < acts.length →
      (rolloutStatesList ens s0 acts).getD (t + 1) [] =
        addTen3 ((rolloutStatesList ens s0 acts).getD t [])
          (ens.sample
            (ens.predict ((rolloutStatesList ens s0 acts).getD t []) (acts.getD t [])).1
            (ens.predict ((rolloutStatesList ens s0 acts).getD t []) (acts.getD t [])).2)
      ∧ ((rolloutSteps ens s0 acts).map (fun x => x.1)).getD t [] =
          (rolloutStatesList ens s0 acts).getD (t + 1) []
      ∧ ((rolloutSteps ens s0 acts).map (fun x => x.2.1)).getD t [] =
          (ens.predict ((rolloutStatesList ens s0 acts).getD t []) (acts.getD t [])).2
      ∧ ((rolloutSteps ens s0 acts).map (fun x => x.2.2)).getD t [] =
          (ens.predict ((rolloutStatesList ens s0 acts).getD t []) (acts.getD t [])).1 := by
  intro acts
  induction acts with
  | nil => intro s0 t ht; simp at ht
  | cons a rest ih =>
    intro s0 t ht
    cases t with
    | zero =>
      refine ⟨?_, ?_, ?_, ?_⟩ <;> simp [rolloutSteps, rolloutStatesList]
    | succ t =>
      have ht' : t < rest.length := by simpa using ht
      have h := ih (addTen3 s0 (ens.sample (ens.predict s0 a).1 (ens.predict s0 a).2)) t ht'
      simpa [rolloutSteps, rolloutStatesList, List.getD_cons_succ] using h

/-- Claim C4: `perform_rollout` follows the stated recurrence.  For
every timestep `t < plan_horizon`, with `s_t` the current state of the
simulation (position `t` of the state list seeded by the initial
state), the ensemble is queried with `s_t` and the timestep-`t` slice
of the candidate actions (replicated across ensemble members) to get
`(delta_mean, delta_var)`; the next state is `s_t` plus the ensemble's
stochastic sample of `(delta_mean, delta_var)`, and `delta_mean`,
`delta_var` and the new state are recorded at position `t + 1` of the
trajectories — equivalently at position `t` of the returned
`(states, delta_vars, delta_means)` tensors, which drop the seed. -/
theorem C4_rollout_recurrence (ens : Ensemble) (H : Nat) (s0 : Ten3)
    (actions : ASeq) (t : Nat) (ht : t < H) (hlen : actions.length = H) :
    (rolloutStatesList ens s0
          ((permuteActions ens.ensemble_size actions).take H)).getD (t + 1) [] =
      addTen3
        ((rolloutStatesList ens s0
          ((permuteActions ens.ensemble_size actions).take H)).getD t [])
        (ens.sample
          (ens.predict
            ((rolloutStatesList ens s0
              ((permuteActions ens.ensemble_size actions).take H)).getD t [])
            (List.replicate ens.ensemble_size (actions.getD t []))).1
          (ens.predict
            ((rolloutStatesList ens s0
              ((permuteActions ens.ensemble_size actions).take H)).getD t [])
            (List.replicate ens.ensemble_size (actions.getD t []))).2)
    ∧ (perform_rollout ens H s0 actions).1.getD t [] =
        (rolloutStatesList ens s0
          ((permuteActions ens.ensemble_size actions).take H)).getD (t + 1) []
    ∧ (perform_rollout ens H s0 actions).2.1.getD t [] =
        (ens.predict
          ((rolloutStatesList ens s0
            ((permuteActions ens.ensemble_size actions).take H)).getD t [])
          (List.replicate ens.ensemble_size (actions.getD t []))).2
    ∧ (perform_rollout ens H s0 actions).2.2.getD t [] =
        (ens.predict
          ((rolloutStatesList ens s0
            ((permuteActions ens.ensemble_size actions).take H)).getD t [])
          (List.replicate ens.ensemble_size (actions.getD t []))).1 := by
  have hplen : (permuteActions ens.ensemble_size actions).length = H := by
    simpa [permuteActions] using hlen
  have htake : t < ((permuteActions ens.ensemble_size actions).take H).length := by
    rw [List.length_take, hplen]
    omega
  have hslice : ((permuteActions ens.ensemble_size actions).take H).getD t [] =
      List.replicate ens.ensemble_size (actions.getD t []) := by
    rw [List.getD_eq_getElem _ _ htake, List.getElem_take]
    simp only [permuteActions, List.getElem_map]
    rw [List.getD_eq_getElem _ _ (by omega : t < actions.length)]
  have h := rollout_step_spec ens
    ((permuteActions ens.ensemble_size actions).take H) s0 t htake
  rw [hslice] at h
  simpa [perform_rollout] using h

/-- Witness for C4 at a concrete one-step rollout. -/
theorem C4_rollout_recurrence_witness :
    (rolloutStatesList exEnsemble [[[some 0]]]
          ((permuteActions exEnsemble.ensemble_size [[[ (1 : ℚ) ]]]).take 1)).getD 1 [] =
      addTen3
        ((rolloutStatesList exEnsemble [[[some 0]]]
          ((permuteActions exEnsemble.ensemble_size [[[ (1 : ℚ) ]]]).take 1)).getD 0 [])
        (exEnsemble.sample
          (exEnsemble.predict
            ((rolloutStatesList exEnsemble [[[some 0]]]
              ((permuteActions exEnsemble.ensemble_size [[[ (1 : ℚ) ]]]).take 1)).getD 0 [])
            (List.replicate exEnsemble.ensemble_size ([[[ (1 : ℚ) ]]].getD 0 []))).1
          (exEnsemble.predict
            ((rolloutStatesList exEnsemble [[[some 0]]]
              ((permuteActions exEnsemble.ensemble_size [[[ (1 : ℚ) ]]]).take 1)).getD 0 [])
            (List.replicate exEnsemble.ensemble_size ([[[ (1 : ℚ) ]]].getD 0 []))).2) :=
  (C4_rollout_recurrence exEnsemble 1 [[[some 0]]] [[[ (1 : ℚ) ]]] 0 (by decide)
    (by decide)).1

/-! ### C5 -/

/-- The shape contract of the external dynamics ensemble (spec section
6): on an `(E, C, D)` state tensor and an `(E, C, A)` action block,
`predict` returns two `(E, C, D)` tensors, and `sample` maps two
`(E, C, D)` tensors to an `(E, C, D)` tensor. -/
def ensembleShapeOK (ens : Ensemble) (C D A : Nat) : Prop :=
  (∀ s acts, ten3Shape ens.ensemble_size C D s →
      acts.length = ens.ensemble_size → (∀ m ∈ acts, aMatShape C A m) →
      ten3Shape ens.ensemble_size C D (ens.predict s acts).1
      ∧ ten3Shape ens.ensemble_size C D (ens.predict s acts).2)
  ∧ (∀ dm dv, ten3Shape ens.ensemble_size C D dm →
      ten3Shape ens.ensemble_size C D dv →
      ten3Shape ens.ensemble_size C D (ens.sample dm dv))

theorem mem_zipWith {α β γ : Type _} {f : α → β → γ} :
    ∀ {l1 : List α} {l2 : List β} {c : γ}, c ∈ List.zipWith f l1 l2 →
      ∃ a ∈ l1, ∃ b ∈ l2, c = f a b := by
  intro l1
  induction l1 with
  | nil => intro l2 c hc; simp at hc
  | cons a as ih =>
    intro l2 c hc
    cases l2 with
    | nil => simp at hc
    | cons b bs =>
      rw [List.zipWith_cons_cons] at hc
      rcases List.mem_cons.mp hc with rfl | h
      · exact ⟨a, by simp, b, by simp, rfl⟩
      · obtain ⟨x, hx, y, hy, rfl⟩ := ih h
        exact ⟨x, by simp [hx], y, by simp [hy], rfl⟩

theorem addTen3_shape {E C D : Nat} {x y : Ten3} (hx : ten3Shape E C D x)
    (hy : ten3Shape E C D y) : ten3Shape E C D (addTen3 x y) := by
  obtain ⟨hxl, hxm⟩ := hx
  obtain ⟨hyl, hym⟩ := hy
  refine ⟨by rw [addTen3, List.length_zipWith, hxl, hyl, Nat.min_self], ?_⟩
  intro m hm
  obtain ⟨mx, hmx, my, hmy, rfl⟩ := mem_zipWith hm
  obtain ⟨hmxl, hmxr⟩ := hxm mx hmx
  obtain ⟨hmyl, hmyr⟩ := hym my hmy
  refine ⟨by rw [List.length_zipWith, hmxl, hmyl, Nat.min_self], ?_⟩
  intro r hr
  obtain ⟨rx, hrx, ry, hry, rfl⟩ := mem_zipWith hr
  rw [List.length_zipWith, hmxr rx hrx, hmyr ry hry, Nat.min_self]

theorem rolloutSteps_length (ens : Ensemble) :
    ∀ (acts : List (List AMat)) (s : Ten3),
      (rolloutSteps ens s acts).length = acts.length := by
  intro acts
  induction acts with
  | nil => intro s; rfl
  | cons a rest ih => intro s; simp [rolloutSteps, ih]

theorem rolloutSteps_shape {C D A : Nat} {ens : Ensemble}
    (hok : ensembleShapeOK ens C D A) :
    ∀ (acts : List (List AMat)) (s : Ten3),
      ten3Shape ens.ensemble_size C D s →
      (∀ blk ∈ acts, blk.length = ens.ensemble_size ∧ ∀ m ∈ blk, aMatShape C A m) →
      ∀ x ∈ rolloutSteps ens s acts,
        ten3Shape ens.ensemble_size C D x.1
        ∧ ten3Shape ens.ensemble_size C D x.2.1
        ∧ ten3Shape ens.ensemble_size C D x.2.2 := by
  intro acts
  induction acts with
  | nil => intro s _ _ x hx; simp [rolloutSteps] at hx
  | cons a rest ih =>
    intro s hs hacts x hx
    have ha := hacts a (List.mem_cons_self a rest)
    have hpred := hok.1 s a hs ha.1 ha.2
    have hsamp := hok.2 _ _ hpred.1 hpred.2
    have hs' : ten3Shape ens.ensemble_size C D
        (addTen3 s (ens.sample (ens.predict s a).1 (ens.predict s a).2)) :=
      addTen3_shape hs hsamp
    simp only [rolloutSteps] at hx
    rcases List.mem_cons.mp hx with rfl | hx'
    · exact ⟨hs', hpred.2, hpred.1⟩
    · exact ih _ hs' (fun blk hblk => hacts blk (List.mem_cons_of_mem a hblk)) x hx'

/-- Claim C5: for an initial state of shape
`(ensemble_size, n_candidates, state_dim)` and candidate actions of
shape `(plan_horizon, n_candidates, action_size)`, and an ensemble
honouring its shape contract, `perform_rollout` returns three tensors
`(states, delta_vars, delta_means)`, each of shape
`(plan_horizon, ensemble_size, n_candidates, state_dim)`; the states
tensor is the tail of the seeded state trajectory, i.e. it covers
simulated timesteps `1..plan_horizon` and excludes the initial state
at `t = 0`. -/
theorem C5_rollout_shape {C D A H : Nat} {ens : Ensemble}
    (hok : ensembleShapeOK ens C D A) (s0 : Ten3)
    (hs0 : ten3Shape ens.ensemble_size C D s0) (actions : ASeq)
    (hact : aSeqShape H C A actions) :
    ten4Shape H ens.ensemble_size C D (perform_rollout ens H s0 actions).1
    ∧ ten4Shape H ens.ensemble_size C D (perform_rollout ens H s0 actions).2.1
    ∧ ten4Shape H ens.ensemble_size C D (perform_rollout ens H s0 actions).2.2
    ∧ (perform_rollout ens H s0 actions).1 =
        (rolloutStatesList ens s0
          ((permuteActions ens.ensemble_size actions).take H)).tail := by
  obtain ⟨hal, ham⟩ := hact
  have hacts : ∀ blk ∈ (permuteActions ens.ensemble_size actions).take H,
      blk.length = ens.ensemble_size ∧ ∀ m ∈ blk, aMatShape C A m := by
    intro blk hblk
    have hblk' := List.mem_of_mem_take hblk
    obtain ⟨slice, hslice, rfl⟩ := List.mem_map.mp hblk'
    refine ⟨List.length_replicate _ _, ?_⟩
    intro m hm
    rw [List.eq_of_mem_replicate hm]
    exact ham slice hslice
  have hlen : (rolloutSteps ens s0
      ((permuteActions ens.ensemble_size actions).take H)).length = H := by
    rw [rolloutSteps_length, List.length_take]
    simp [permuteActions, hal]
  have hmem := rolloutSteps_shape hok
    ((permuteActions ens.ensemble_size actions).take H) s0 hs0 hacts
  refine ⟨⟨by simpa [perform_rollout] using hlen, ?_⟩,
    ⟨by simpa [perform_rollout] using hlen, ?_⟩,
    ⟨by simpa [perform_rollout] using hlen, ?_⟩, ?_⟩
  · intro m hm
    simp only [perform_rollout, List.mem_map] at hm
    obtain ⟨x, hx, rfl⟩ := hm
    exact (hmem x hx).1
  · intro m hm
    simp only [perform_rollout, List.mem_map] at hm
    obtain ⟨x, hx, rfl⟩ := hm
    exact (hmem x hx).2.1
  · intro m hm
    simp only [perform_rollout, List.mem_map] at hm
    obtain ⟨x, hx, rfl⟩ := hm
    exact (hmem x hx).2.2
  · rfl

/-- Witness for C5 at a concrete one-step rollout with a constant
well-shaped ensemble. -/
theorem C5_rollout_shape_witness :
    ten4Shape 1 exEnsemble.ensemble_size 1 1
      (perform_rollout exEnsemble 1 [[[some 0]]] [[[ (1 : ℚ) ]]]).1 := by
  have hok : ensembleShapeOK exEnsemble 1 1 1 := by
    constructor
    · intro s acts _ _ _
      constructor
      · show ten3Shape 1 1 1 [[[some 0]]]
        decide
      · show ten3Shape 1 1 1 [[[some 0]]]
        decide
    · intro dm dv hdm _
      exact hdm
  exact (C5_rollout_shape hok [[[some 0]]] (by decide) [[[ (1 : ℚ) ]]] (by decide)).1

/-! ### C6 -/

theorem map_eq_range_map {α β : Type _} (l : List α) (f : α → β) (d : α) :
    l.map f = (List.range l.length).map (fun i => f (l.getD i d)) := by
  apply List.ext_getElem
  · simp
  · intro i h1 h2
    simp only [List.getElem_map, List.getElem_range]
    rw [List.getD_eq_getElem _ _ (by simpa using h1)]

theorem getD_mem_of_lt {α : Type _} {l : List α} {i : Nat} (h : i < l.length)
    (d : α) : l.getD i d ∈ l := by
  rw [List.getD_eq_getElem _ _ h]
  exact List.getElem_mem h

theorem sumDim0_getD {C c : Nat} (hc : c < C) (rows : List (List Val)) (d : Val) :
    (sumDim0 C rows).getD c d = vSum (rows.map (fun r => r.getD c (some 0))) := by
  rw [sumDim0, getD_map_lt _ _ (by simpa using hc) _ 0, getD_range_lt hc]

theorem meanDim0_getD {C c : Nat} (hc : c < C) (rows : List (List Val)) (d : Val) :
    (meanDim0 C rows).getD c d =
      vDivNat (vSum (rows.map (fun r => r.getD c (some 0)))) rows.length := by
  rw [meanDim0, getD_map_lt _ _ (by simpa using hc) _ 0, getD_range_lt hc]

/-- Claim C6: when reward scoring is enabled, (i) the per-candidate
reward vector computed from any well-shaped simulated-states tensor is,
at every candidate `c`, the sum over the `plan_horizon` timesteps of
the mean over ensemble members of the reward model's prediction on the
simulated state of candidate `c`; (ii) the iteration's returns vector
is the no-reward returns vector plus exactly this vector; and (iii)
exactly this per-candidate vector (ensemble-averaged, time-summed) is
appended to the statistics log once in that iteration. -/
theorem C6_reward_contribution {H E C D : Nat} (cfg : Cfg) (w : World)
    (state0 : Ten3) (ls : LoopState) (noise : ASeq)
    (hr : cfg.use_reward = true) (states : Ten4)
    (hst : ten4Shape H E C D states) (c : Nat) (hc : c < C) :
    (computeRewards C w.reward_model states).getD c none =
      vSum ((List.range H).map (fun t =>
        vDivNat (vSum ((List.range E).map (fun e =>
          w.reward_model (((states.getD t []).getD e []).getD c [])))) E))
    ∧ cemReturns cfg w state0 ls noise =
        List.zipWith vAdd (cemReturns { cfg with use_reward := false } w state0 ls noise)
          (computeRewards cfg.n_candidates w.reward_model
            (perform_rollout w.ensemble cfg.plan_horizon state0
              (sampleActions ls.action_mean ls.action_std_dev noise)).1)
    ∧ (iterStep cfg w state0 ls noise).reward_log =
        ls.reward_log ++ [computeRewards cfg.n_candidates w.reward_model
          (perform_rollout w.ensemble cfg.plan_horizon state0
            (sampleActions ls.action_mean ls.action_std_dev noise)).1] := by
  refine ⟨?_, ?_, ?_⟩
  · rw [computeRewards, sumDim0_getD hc _ none, List.map_map, List.map_map,
      map_eq_range_map states _ [], hst.1]
    congr 1
    apply List.map_congr_left
    intro t ht
    have htH : t < H := List.mem_range.mp ht
    have hlen : states.length = H := hst.1
    have hm3 : states.getD t [] ∈ states := getD_mem_of_lt (by omega) []
    have hshape := hst.2 _ hm3
    simp only [Function.comp]
    rw [meanDim0_getD hc _ (some 0), List.length_map, hshape.1]
    congr 1
    rw [List.map_map]
    have hinner : (states.getD t []).map
        ((fun r => r.getD c (some 0)) ∘ (fun m2 => m2.map w.reward_model)) =
        (states.getD t []).map (fun m2 => w.reward_model (m2.getD c [])) := by
      apply List.map_congr_left
      intro m2 hm2
      simp only [Function.comp]
      exact getD_map_lt _ _ (by rw [(hshape.2 m2 hm2).1]; omega) _ []
    rw [hinner, map_eq_range_map (states.getD t []) _ [], hshape.1]
  · simp [cemReturns, hr]
  · simp only [iterStep, iterStepSel, hr, if_true]

/-- Witness for C6 at a concrete instance. -/
theorem C6_reward_contribution_witness :
    (computeRewards 1 exWorldNan.reward_model [[[[some 0]]]]).getD 0 none =
      vSum ((List.range 1).map (fun t =>
        vDivNat (vSum ((List.range 1).map (fun e =>
          exWorldNan.reward_model
            (((([[[[some 0]]]] : Ten4).getD t []).getD e []).getD 0 [])))) 1)) := by
  have h := C6_reward_contribution (H := 1) (E := 1) (C := 1) (D := 1)
    exCfg exWorldNan [[[some 0]]] (initLoopState exCfg []) [[[0]]]
    (by decide) [[[[some 0]]]] (by decide) 0 (by decide)
  exact h.1

/-! ### C1 -/

theorem zipWith3_length {α β γ δ : Type _} (f : α → β → γ → δ) :
    ∀ (l1 : List α) (l2 : List β) (l3 : List γ),
      (zipWith3 f l1 l2 l3).length = min l1.length (min l2.length l3.length) := by
  intro l1
  induction l1 with
  | nil => intro l2 l3; simp [zipWith3]
  | cons a as ih =>
    intro l2 l3
    cases l2 with
    | nil => simp [zipWith3]
    | cons b bs =>
      cases l3 with
      | nil => simp [zipWith3]
      | cons c cs =>
        simp only [zipWith3, List.length_cons, ih]
        omega

/-- The action-distribution bookkeeping invariant maintained by the CEM
loop: the mean and std tensors span `plan_horizon` timesteps and the
mean's rows span `action_size` entries. -/
def meanStdOK (cfg : Cfg) (ls : LoopState) : Prop :=
  ls.action_mean.length = cfg.plan_horizon
  ∧ ls.action_std_dev.length = cfg.plan_horizon
  ∧ ∀ row ∈ ls.action_mean, row.length = cfg.action_size

theorem iterStepSel_meanStdOK (cfg : Cfg) (w : World) (state0 : Ten3)
    (sel : List ℚ → List Nat) (ls : LoopState) (noise : ASeq)
    (hok : meanStdOK cfg ls) (hn : noise.length = cfg.plan_horizon) :
    meanStdOK cfg (iterStepSel cfg w state0 sel ls noise) := by
  obtain ⟨h1, h2, h3⟩ := hok
  have hact : (sampleActions ls.action_mean ls.action_std_dev noise).length =
      cfg.plan_horizon := by
    rw [sampleActions, zipWith3_length, h1, h2, hn]
    omega
  refine ⟨?_, ?_, ?_⟩
  · simp [iterStepSel, refitMean, gather, hact]
  · simp [iterStepSel, refitStd, gather, hact]
  · intro row hrow
    simp only [iterStepSel, refitMean, List.mem_map] at hrow
    obtain ⟨block, hblock, rfl⟩ := hrow
    simp

theorem runItersSel_meanStdOK (cfg : Cfg) (w : World) (state0 : Ten3)
    (sel : List ℚ → List Nat) :
    ∀ (noises : List ASeq) (ls : LoopState), meanStdOK cfg ls →
      (∀ n ∈ noises, n.length = cfg.plan_horizon) →
      meanStdOK cfg (runItersSel cfg w state0 sel ls noises) := by
  intro noises
  induction noises with
  | nil => intro ls h _; exact h
  | cons n ns ih =>
    intro ls h hn
    exact ih (iterStepSel cfg w state0 sel ls n)
      (iterStepSel_meanStdOK cfg w state0 sel ls n h (hn n (by simp)))
      (fun m hm => hn m (by simp [hm]))

/-- Claim C1: for every valid configuration (all size parameters
positive, `top_candidates ≤ n_candidates`) and one well-shaped noise
draw per optimisation iteration, `plan(current_state)` (the `forward`
entry point) returns a vector of exactly `action_size` entries, and
that vector is the first-timestep slice of the refined
action-distribution mean after the final CEM iteration. -/
theorem C1_forward_action_size (cfg : Cfg) (w : World) (log : List (List Val))
    (s : Vec) (noises : List ASeq)
    (hA : 0 < cfg.action_size) (hH : 0 < cfg.plan_horizon)
    (hI : 0 < cfg.optimisation_iters) (hC : 0 < cfg.n_candidates)
    (hk : 0 < cfg.top_candidates) (hkC : cfg.top_candidates ≤ cfg.n_candidates)
    (hni : noises.length = cfg.optimisation_iters)
    (hns : ∀ n ∈ noises, n.length = cfg.plan_horizon) :
    (forward cfg w log s noises).1.length = cfg.action_size
    ∧ (forward cfg w log s noises).1 =
        (runIters cfg w
          (List.replicate w.ensemble.ensemble_size (List.replicate cfg.n_candidates s))
          (initLoopState cfg log) noises).action_mean.headD [] := by
  have hinit : meanStdOK cfg (initLoopState cfg log) := by
    refine ⟨by simp [initLoopState], by simp [initLoopState], ?_⟩
    intro row hrow
    rw [List.eq_of_mem_replicate hrow]
    simp
  have hok := runItersSel_meanStdOK cfg w
    (List.replicate w.ensemble.ensemble_size (List.replicate cfg.n_candidates s))
    (topk cfg.top_candidates) noises (initLoopState cfg log) hinit hns
  set mean := (runItersSel cfg w
    (List.replicate w.ensemble.ensemble_size (List.replicate cfg.n_candidates s))
    (topk cfg.top_candidates) (initLoopState cfg log) noises).action_mean with hmean
  have hne : mean ≠ [] := by
    have hlen := hok.1
    rw [← hmean] at hlen
    intro hnil
    rw [hnil] at hlen
    simp at hlen
    omega
  obtain ⟨r, rest, hcons⟩ := List.exists_cons_of_ne_nil hne
  have hfst : (forward cfg w log s noises).1 = mean.headD [] := rfl
  refine ⟨?_, hfst⟩
  rw [hfst, hcons]
  have hrm : r ∈ mean := by rw [hcons]; exact List.mem_cons_self r rest
  rw [hmean] at hrm
  exact hok.2.2 r hrm

/-- Witness for C1 at a concrete valid configuration. -/
theorem C1_forward_action_size_witness :
    (forward exCfg exWorldNan [] [some 0] [[[[0]]]]).1.length = exCfg.action_size :=
  (C1_forward_action_size exCfg exWorldNan [] [some 0] [[[[0]]]]
    (by decide) (by decide) (by decide) (by decide) (by decide) (by decide)
    (by decide) (by decide)).1

/-! ### C9 -/

theorem qMean_perm {l1 l2 : List ℚ} (h : l1.Perm l2) : qMean l1 = qMean l2 := by
  rw [qMean, qMean, h.sum_eq, h.length_eq]

theorem popVar_perm {l1 l2 : List ℚ} (h : l1.Perm l2) : popVar l1 = popVar l2 := by
  rw [popVar, popVar, qMean_perm h, h.length_eq,
    List.Perm.sum_eq (h.map (fun x => (x - qMean l2) ^ 2))]

theorem gather_refit_perm (A : Nat) (actions : ASeq) {idxs1 idxs2 : List Nat}
    (h : idxs1.Perm idxs2) :
    refitMean A (gather actions idxs1) = refitMean A (gather actions idxs2)
    ∧ refitStd A (gather actions idxs1) = refitStd A (gather actions idxs2) := by
  constructor
  · rw [refitMean, refitMean, gather, gather, List.map_map, List.map_map]
    apply List.map_congr_left
    intro slice _
    simp only [Function.comp]
    apply List.map_congr_left
    intro a _
    exact qMean_perm ((h.map (fun i => slice.getD i [])).map (fun row => row.getD a 0))
  · rw [refitStd, refitStd, gather, gather, List.map_map, List.map_map]
    apply List.map_congr_left
    intro slice _
    simp only [Function.comp]
    apply List.map_congr_left
    intro a _
    congr 1
    exact popVar_perm ((h.map (fun i => slice.getD i [])).map (fun row => row.getD a 0))

theorem iterStepSel_congr_sel (cfg : Cfg) (w : World) (state0 : Ten3)
    (sel1 sel2 : List ℚ → List Nat)
    (hsel : ∀ xs : List ℚ, (sel1 xs).Perm (sel2 xs))
    (ls : LoopState) (noise : ASeq) :
    iterStepSel cfg w state0 sel1 ls noise = iterStepSel cfg w state0 sel2 ls noise := by
  have hg := gather_refit_perm cfg.action_size
    (sampleActions ls.action_mean ls.action_std_dev noise)
    (hsel (cleanReturns (cemReturns cfg w state0 ls noise)))
  simp only [iterStepSel]
  rw [hg.1, hg.2]

theorem runItersSel_congr_sel (cfg : Cfg) (w : World) (state0 : Ten3)
    (sel1 sel2 : List ℚ → List Nat)
    (hsel : ∀ xs : List ℚ, (sel1 xs).Perm (sel2 xs)) :
    ∀ (noises : List ASeq) (ls : LoopState),
      runItersSel cfg w state0 sel1 ls noises =
        runItersSel cfg w state0 sel2 ls noises := by
  intro noises
  induction noises with
  | nil => intro ls; rfl
  | cons n ns ih =>
    intro ls
    show runItersSel cfg w state0 sel1 (iterStepSel cfg w state0 sel1 ls n) ns =
      runItersSel cfg w state0 sel2 (iterStepSel cfg w state0 sel2 ls n) ns
    rw [iterStepSel_congr_sel cfg w state0 sel1 sel2 hsel ls n]
    exact ih _

/-- Claim C9: with a fixed noise draw and a single optimisation
iteration, the planner's output is a function of the input state and
the noise draw only: any two elite-selection functions that always
return a permutation of all candidate indices (which is what every
valid top-k selection does when `top_candidates = n_candidates`, i.e.
when every candidate is elite) make `forward` produce identical
outputs, because the refit mean and std are invariant to the
unspecified top-k ordering; moreover the planner's own `topk` is such
a full selection whenever `top_candidates` equals the length of the
returns vector. -/
theorem C9_all_elite_deterministic (cfg : Cfg) (w : World)
    (log : List (List Val)) (s : Vec) (noise : ASeq)
    (sel1 sel2 : List ℚ → List Nat)
    (hsel1 : ∀ xs : List ℚ, (sel1 xs).Perm (List.range xs.length))
    (hsel2 : ∀ xs : List ℚ, (sel2 xs).Perm (List.range xs.length)) :
    forwardSel cfg w sel1 log s [noise] = forwardSel cfg w sel2 log s [noise]
    ∧ ∀ xs : List ℚ, cfg.top_candidates = xs.length →
        (topk cfg.top_candidates xs).Perm (List.range xs.length) := by
  constructor
  · have hsel : ∀ xs : List ℚ, (sel1 xs).Perm (sel2 xs) :=
      fun xs => (hsel1 xs).trans (hsel2 xs).symm
    simp only [forwardSel]
    rw [runItersSel_congr_sel cfg w _ sel1 sel2 hsel]
  · intro xs hkx
    have hlen : (sortDescPairs xs).length = xs.length := by
      rw [(sortDescPairs_perm xs).length_eq, List.enum_length]
    rw [topk, hkx, List.take_of_length_le (le_of_eq hlen)]
    have h := (sortDescPairs_perm xs).map Prod.fst
    rwa [List.enum_map_fst] at h

/-- Witness for C9: the identity-order and reversed-order full
selections produce the same planner output on a concrete instance. -/
theorem C9_all_elite_deterministic_witness :
    forwardSel exCfg exWorldNan (fun xs => List.range xs.length) [] [some 0] [[[[0]]]]
      = forwardSel exCfg exWorldNan (fun xs => (List.range xs.length).reverse)
          [] [some 0] [[[[0]]]] :=
  (C9_all_elite_deterministic exCfg exWorldNan [] [some 0] [[[0]]]
    (fun xs => List.range xs.length) (fun xs => (List.range xs.length).reverse)
    (fun xs => List.Perm.refl _) (fun xs => List.reverse_perm _)).1

end Pmbrl
